import Mathlib

/-!
Verification development for the go-estimate filter library.

The Go source is shallow-embedded over exact rational arithmetic:
`float64` becomes `ℚ`, `gonum` vectors become `Fin n → ℚ` and matrices
become Mathlib `Matrix (Fin m) (Fin n) ℚ`.  Fallible operations return
`Outcome`/`Option`; a Go runtime panic is the distinguished `Outcome.crash`
constructor.  Randomness is made explicit: every call to `Sample()` is fed
from a stream of pre-drawn values (`List ℚ`), and SVD factorisation results
are passed in as parameters together with the hypotheses that make them a
genuine factorisation.
-/

namespace GoEstimate

open scoped Matrix

/-- Dense column vector of rationals, the embedding of a gonum vector of
known length. -/
abbrev Vec (n : ℕ) := Fin n → ℚ

/-- Dense rational matrix, the embedding of `mat.Dense`/`mat.SymDense`. -/
abbrev Mtx (m n : ℕ) := Matrix (Fin m) (Fin n) ℚ

/-- Reading a dynamically sized vector (a Go `mat.Vector` or `[]float64`)
at index `i`, with the gonum convention that we only ever read indices that
exist; absent entries are 0 (used only for padding semantics of `Copy`). -/
def listToVec (n : ℕ) (l : List ℚ) : Vec n := fun i => l.getD i.val 0

/-- Flatten a fixed-size vector back into a Go slice. -/
def vecToList {n : ℕ} (v : Vec n) : List ℚ := (List.finRange n).map v

/-- `mat.SymDense` written through `SetSym(i, j, M[i][j])` for `j ≥ i` only:
entry `(i,j)` of the result is the source entry at `(min i j, max i j)`. -/
def symmUpper {n : ℕ} (M : Mtx n n) : Mtx n n :=
  fun i j => M (min i j) (max i j)

/-- `mat.SymDense` written through `SetSym(i, j, M[i][j])` over the full
index square in row-major order: the later of the two writes to slot
`{i,j}` wins, so the entry read back is the source entry at
`(max i j, min i j)`. -/
def symmLower {n : ℕ} (M : Mtx n n) : Mtx n n :=
  fun i j => M (max i j) (min i j)

/-- The minor of a square matrix with row `i` and column `j` removed. -/
def minorQ {n : ℕ} (M : Mtx (n + 1) (n + 1)) (i j : Fin (n + 1)) :
    Mtx n n :=
  fun r c => M (i.succAbove r) (j.succAbove c)

/-- Determinant by cofactor expansion along the first column (kept
explicitly computable). -/
def detQ : {n : ℕ} → Mtx n n → ℚ
  | 0, _ => 1
  | _ + 1, M =>
      ∑ i, (-1) ^ i.val * M i 0 * detQ (minorQ M i 0)

/-- Adjugate via cofactors. -/
def adjugateQ {n : ℕ} (M : Mtx n n) : Mtx n n :=
  match n, M with
  | 0, _ => fun i _ => absurd i.isLt (by omega)
  | _ + 1, M => fun i j => (-1) ^ (i.val + j.val) * detQ (minorQ M j i)

/-- `mat.Dense.Inverse`: fails exactly on singular input (exact-arithmetic
reading of gonum's conditioning error). -/
def qInv {n : ℕ} (A : Mtx n n) : Option (Mtx n n) :=
  if detQ A = 0 then none else some ((detQ A)⁻¹ • adjugateQ A)

/-- Result of a Go call: a value, an error return, or a runtime panic. -/
inductive Outcome (α : Type) where
  | ok (val : α)
  | err
  | crash
  deriving DecidableEq

/-- A value of Go interface type `mat.Vector` as passed to `Update`:
either concretely a `*mat.VecDense`, or any other implementation of the
interface carrying the same data. -/
inductive GoVector (n : ℕ) where
  | vecDense (v : Vec n)
  | basicVec (v : Vec n)
  deriving DecidableEq

/-- The data held by a `mat.Vector`, whatever its dynamic type. -/
def GoVector.val {n : ℕ} : GoVector n → Vec n
  | .vecDense v => v
  | .basicVec v => v

/-- A `filter.Noise` collaborator attached to a filter of dimension `n`:
`noise.None` (zero-size mean/covariance), `noise.Zero` (dimensioned zero
noise) or a Gaussian noise with the given covariance whose samples are
drawn from the random stream. -/
inductive GoNoise (n : ℕ) where
  | none'
  | zero
  | gaussian (cov : Mtx n n)
  deriving DecidableEq

/-- `Sample()`: `None` yields an empty vector, `Zero` a zero vector of
length `n`, a Gaussian draws `n` values from the stream.  Returns the
sample together with the rest of the stream. -/
def GoNoise.sampleF {n : ℕ} : GoNoise n → List ℚ → List ℚ × List ℚ
  | .none', s => ([], s)
  | .zero, s => (List.replicate n 0, s)
  | .gaussian _, s => (s.take n, s.drop n)

/-- The `if _, ok := q.(*noise.None); !ok { ... q.Cov() ... }` pattern:
`none` when the noise is the `None` variant, otherwise the `n × n`
covariance returned by `Cov()`. -/
def GoNoise.covOpt {n : ℕ} : GoNoise n → Option (Mtx n n)
  | .none' => none
  | .zero => some 0
  | .gaussian c => some c

/-- `Cov().Symmetric()`: 0 for the `None` variant, `n` otherwise. -/
def GoNoise.cdim {n : ℕ} : GoNoise n → ℕ
  | .none' => 0
  | .zero => n
  | .gaussian _ => n

/-- A `filter.Model`: state propagation and output observation with
dynamically sized input vector and noise-sample arguments (either may be
the Go `nil`, embedded as `Option.none`).  `Option.none` as a result is the
model's error return. -/
structure DModel (nx nu ny : ℕ) where
  propagate : Vec nx → Option (List ℚ) → Option (List ℚ) → Option (Vec nx)
  observe : Vec nx → Option (List ℚ) → Option (List ℚ) → Option (Vec ny)

/-- A `filter.DiscreteControlSystem`: a model together with its static
system matrices. -/
structure DCtl (nx nu ny : ℕ) extends DModel nx nu ny where
  A : Mtx nx nx
  B : Mtx nx nu
  C : Mtx ny nx
  D : Mtx ny nu

/-- `sim.Discrete.Propagate`: `A·x + B·u` plus the noise sample when it is
non-nil and has length `nx`; errors when a non-nil input vector has the
wrong length. -/
def simPropagate {nx nu : ℕ} (A : Mtx nx nx) (B : Mtx nx nu)
    (x : Vec nx) (u : Option (List ℚ)) (wd : Option (List ℚ)) :
    Option (Vec nx) :=
  let wdTerm : Vec nx := match wd with
    | some w => if w.length = nx then listToVec nx w else 0
    | none => 0
  match u with
  | some ul =>
      if ul.length ≠ nu then none
      else some (A.mulVec x + B.mulVec (listToVec nu ul) + wdTerm)
  | none => some (A.mulVec x + wdTerm)

/-- `sim.System.Observe`: `C·x + D·u` plus the noise sample when it is
non-nil and has length `ny`; errors when a non-nil input vector has the
wrong length. -/
def simObserve {nx nu ny : ℕ} (C : Mtx ny nx) (D : Mtx ny nu)
    (x : Vec nx) (u : Option (List ℚ)) (wn : Option (List ℚ)) :
    Option (Vec ny) :=
  let wnTerm : Vec ny := match wn with
    | some w => if w.length = ny then listToVec ny w else 0
    | none => 0
  match u with
  | some ul =>
      if ul.length ≠ nu then none
      else some (C.mulVec x + D.mulVec (listToVec nu ul) + wnTerm)
  | none => some (C.mulVec x + wnTerm)

/-- The `sim.Discrete` linear model bundled as a discrete control system. -/
def linSys {nx nu ny : ℕ} (A : Mtx nx nx) (B : Mtx nx nu)
    (C : Mtx ny nx) (D : Mtx ny nu) : DCtl nx nu ny :=
  { propagate := simPropagate A B
    observe := simObserve C D
    A := A, B := B, C := C, D := D }

namespace KF

/-- `kf.KF.Predict`: propagate the state through the model with a process
noise sample, and set the predicted covariance to `A·P·Aᵀ` plus the process
noise covariance unless the noise is `None`.  The covariance is written
into a `SymDense` over the full index square (`symmLower`). -/
def predict {nx nu ny : ℕ} (m : DCtl nx nu ny) (q : GoNoise nx)
    (p : Mtx nx nx) (x : Vec nx) (u : Option (List ℚ)) (qs : List ℚ) :
    Outcome (Vec nx × Mtx nx nx) :=
  match m.propagate x u (some qs) with
  | none => .err
  | some xNext =>
      let cov0 := m.A * p * (m.A)ᵀ
      let cov := match q.covOpt with
        | some qc => cov0 + qc
        | none => cov0
      .ok (xNext, symmLower cov)

/-- `kf.KF.Update`: measurement-length check, output observation, gain
computation via `S = C·P'·Cᵀ (+R)` and its inverse, in-place state
correction through the `x.(*mat.VecDense)` type assertion, and the
Joseph-form covariance write.  When the measurement noise is the `None`
variant, `pCorr` is never assigned and the final write loop reads entry
`(0,0)` of an empty `mat.Dense`, a runtime panic (for `nx > 0`). -/
def update {nx nu ny : ℕ} (m : DCtl nx nu ny) (r : GoNoise ny)
    (pNext : Mtx nx nx) (x : GoVector nx) (u : Option (List ℚ))
    (z : List ℚ) (rs : List ℚ) : Outcome (Vec nx × Mtx nx nx) :=
  if z.length ≠ ny then .err
  else
    match m.observe x.val u (some rs) with
    | none => .err
    | some yNext =>
        let pxy := pNext * (m.C)ᵀ
        let pyy0 := m.C * pxy
        let pyy := match r.covOpt with
          | some rc => pyy0 + rc
          | none => pyy0
        match qInv pyy with
        | none => .err
        | some pyyInv =>
            let gain := pxy * pyyInv
            let inn := listToVec ny z - yNext
            match x with
            | .basicVec _ => .crash
            | .vecDense xv =>
                let xNew := xv + gain.mulVec inn
                match r.covOpt with
                | some rc =>
                    let a := (1 : Mtx nx nx) - gain * m.C
                    let pCorr := a * pNext * aᵀ + gain * rc * gainᵀ
                    .ok (xNew, symmUpper pCorr)
                | none =>
                    if nx = 0 then .ok (xNew, 0) else .crash

/-- `kf.KF.Run`: `Predict` then `Update` on the predicted state (a fresh
`*mat.VecDense`), threading the random stream through the two samples. -/
def run {nx nu ny : ℕ} (m : DCtl nx nu ny) (q : GoNoise nx) (r : GoNoise ny)
    (p : Mtx nx nx) (x : Vec nx) (u : Option (List ℚ)) (z : List ℚ)
    (s : List ℚ) : Outcome (Vec nx × Mtx nx nx) :=
  let qdraw := q.sampleF s
  match predict m q p x u qdraw.1 with
  | .err => .err
  | .crash => .crash
  | .ok (xNext, pNext) =>
      let rdraw := r.sampleF qdraw.2
      update m r pNext (.vecDense xNext) u z rdraw.1

end KF

/-- `fd.Jacobian` with the central formula: column `j` is
`(f(x + h·e_j) − f(x − h·e_j)) / (2h)`.  The callback handed to gonum has
no error channel and raises on failure, so the whole computation is `none`
(a panic) when any probed evaluation fails. -/
def unitVec {n : ℕ} (j : Fin n) : Vec n := Pi.single j 1

def numJacobian {n m : ℕ} (f : Vec n → Option (Vec m)) (x : Vec n)
    (h : ℚ) : Option (Mtx m n) :=
  if hc : ∀ j : Fin n, (f (x + h • unitVec j)).isSome ∧
      (f (x - h • unitVec j)).isSome then
    some (fun i j =>
      (((f (x + h • unitVec j)).get (hc j).1) i -
        ((f (x - h • unitVec j)).get (hc j).2) i) / (2 * h))
  else none

namespace EKF

/-- The observation-Jacobian closure `HJacFn`: observe at the probed state
with the current input and a `noise.Zero(ny)` sample. -/
def hJacFn {nx nu ny : ℕ} (m : DModel nx nu ny) (u : Option (List ℚ)) :
    Vec nx → Option (Vec ny) :=
  fun v => m.observe v u (some (List.replicate ny 0))

/-- The propagation-Jacobian closure `FJacFn`: propagate the probed state
with the current input and a `noise.Zero(nx)` sample. -/
def fJacFn {nx nu ny : ℕ} (m : DModel nx nu ny) (u : Option (List ℚ)) :
    Vec nx → Option (Vec nx) :=
  fun v => m.propagate v u (some (List.replicate nx 0))

/-- `ekf.EKF.Predict`: propagate the state, compute the numerical
propagation Jacobian `F` (step size `h`), and set the predicted covariance
to `F·P·Fᵀ` plus the process noise covariance unless the noise is `None`. -/
def predict {nx nu ny : ℕ} (m : DModel nx nu ny) (q : GoNoise nx)
    (p : Mtx nx nx) (x : Vec nx) (u : Option (List ℚ)) (qs : List ℚ)
    (h : ℚ) : Outcome (Vec nx × Mtx nx nx) :=
  match m.propagate x u (some qs) with
  | none => .err
  | some xNext =>
      match numJacobian (fJacFn m u) x h with
      | none => .crash
      | some f =>
          let cov0 := f * p * fᵀ
          let cov := match q.covOpt with
            | some qc => cov0 + qc
            | none => cov0
          .ok (xNext, symmLower cov)

/-- `ekf.EKF.Update`: like the linear KF update but with the numerically
differentiated observation Jacobian `H` in place of the static output
matrix.  Shares the `None`-measurement-noise panic of the KF update. -/
def update {nx nu ny : ℕ} (m : DModel nx nu ny) (r : GoNoise ny)
    (pNext : Mtx nx nx) (x : GoVector nx) (u : Option (List ℚ))
    (z : List ℚ) (rs : List ℚ) (h : ℚ) : Outcome (Vec nx × Mtx nx nx) :=
  if z.length ≠ ny then .err
  else
    match m.observe x.val u (some rs) with
    | none => .err
    | some y =>
        match numJacobian (hJacFn m u) x.val h with
        | none => .crash
        | some hm =>
            let pxy := pNext * hmᵀ
            let pyy0 := hm * pxy
            let pyy := match r.covOpt with
              | some rc => pyy0 + rc
              | none => pyy0
            match qInv pyy with
            | none => .err
            | some pyyInv =>
                let gain := pxy * pyyInv
                let inn := listToVec ny z - y
                match x with
                | .basicVec _ => .crash
                | .vecDense xv =>
                    let xNew := xv + gain.mulVec inn
                    match r.covOpt with
                    | some rc =>
                        let a := (1 : Mtx nx nx) - gain * hm
                        let pCorr := a * pNext * aᵀ + gain * rc * gainᵀ
                        .ok (xNew, symmUpper pCorr)
                    | none =>
                        if nx = 0 then .ok (xNew, 0) else .crash

/-- `ekf.EKF.Run`. -/
def run {nx nu ny : ℕ} (m : DModel nx nu ny) (q : GoNoise nx)
    (r : GoNoise ny) (p : Mtx nx nx) (x : Vec nx) (u : Option (List ℚ))
    (z : List ℚ) (h : ℚ) (s : List ℚ) : Outcome (Vec nx × Mtx nx nx) :=
  let qdraw := q.sampleF s
  match predict m q p x u qdraw.1 h with
  | .err => .err
  | .crash => .crash
  | .ok (xNext, pNext) =>
      let rdraw := r.sampleF qdraw.2
      update m r pNext (.vecDense xNext) u z rdraw.1 h

end EKF

namespace IEKF

/-- One pass of the iterated correction loop at state `gx`: recompute the
observation Jacobian at `gx`, the innovation covariance and gain, then
update the state in place through the `x.(*mat.VecDense)` assertion.
Returns the corrected state with the Jacobian and gain of this pass. -/
def step1 {nx nu ny : ℕ} (m : DModel nx nu ny) (r : GoNoise ny)
    (pNext : Mtx nx nx) (u : Option (List ℚ)) (inn : Vec ny) (h : ℚ)
    (gx : GoVector nx) : Outcome (Vec nx × Mtx ny nx × Mtx nx ny) :=
  match numJacobian (EKF.hJacFn m u) gx.val h with
  | none => .crash
  | some hm =>
      let pxy := pNext * hmᵀ
      let pyy0 := hm * pxy
      let pyy := match r.covOpt with
        | some rc => pyy0 + rc
        | none => pyy0
      match qInv pyy with
      | none => .err
      | some pyyInv =>
          let gain := pxy * pyyInv
          match gx with
          | .basicVec _ => .crash
          | .vecDense xv => .ok (xv + gain.mulVec inn, hm, gain)

/-- The correction loop run `k` times, carrying the Jacobian and gain of
the final pass (the state vector is the caller's `*mat.VecDense` after the
first pass). -/
def iter {nx nu ny : ℕ} (m : DModel nx nu ny) (r : GoNoise ny)
    (pNext : Mtx nx nx) (u : Option (List ℚ)) (inn : Vec ny) (h : ℚ) :
    ℕ → GoVector nx → Outcome (Vec nx × Mtx ny nx × Mtx nx ny)
  | 0, gx => .ok (gx.val, 0, 0)
  | k + 1, gx =>
      match step1 m r pNext u inn h gx with
      | .err => .err
      | .crash => .crash
      | .ok (x1, hm, gain) =>
          match k with
          | 0 => .ok (x1, hm, gain)
          | k' + 1 => iter m r pNext u inn h (k' + 1) (.vecDense x1)

/-- `ekf.IEKF.Update`: measurement-length check, a single observation, the
innovation computed once from the original state, `n` iterated
gain/correction passes, then the Joseph-form covariance write with the
final Jacobian and gain.  With `n = 0` the multiplication of the empty
gain matrix panics; with the `None` measurement noise the `pCorr` write
panics as in KF/EKF. -/
def update {nx nu ny : ℕ} (m : DModel nx nu ny) (r : GoNoise ny)
    (pNext : Mtx nx nx) (n : ℕ) (x : GoVector nx) (u : Option (List ℚ))
    (z : List ℚ) (rs : List ℚ) (h : ℚ) : Outcome (Vec nx × Mtx nx nx) :=
  if z.length ≠ ny then .err
  else
    match m.observe x.val u (some rs) with
    | none => .err
    | some y =>
        let inn := listToVec ny z - y
        if n = 0 then .crash
        else
          match iter m r pNext u inn h n x with
          | .err => .err
          | .crash => .crash
          | .ok (xNew, hm, gain) =>
              match r.covOpt with
              | some rc =>
                  let a := (1 : Mtx nx nx) - gain * hm
                  let pCorr := a * pNext * aᵀ + gain * rc * gainᵀ
                  .ok (xNew, symmUpper pCorr)
              | none =>
                  if nx = 0 then .ok (xNew, 0) else .crash

end IEKF

/-- `matrix.BlockSymDiag` (external helper of the `matrix` dependency):
the symmetric block-diagonal matrix assembled from three symmetric
blocks. -/
def blockDiag3 (a b c : ℕ) (P : Mtx a a) (Q : Mtx b b) (R : Mtx c c) :
    Mtx (a + b + c) (a + b + c) :=
  fun i j =>
    if hia : i.val < a then
      if hja : j.val < a then P ⟨i.val, hia⟩ ⟨j.val, hja⟩ else 0
    else if hib : i.val < a + b then
      if hjb : a ≤ j.val ∧ j.val < a + b then
        Q ⟨i.val - a, by omega⟩ ⟨j.val - a, by omega⟩
      else 0
    else
      if hjc : a + b ≤ j.val then
        R ⟨i.val - a - b, by have := i.isLt; omega⟩
          ⟨j.val - a - b, by have := j.isLt; omega⟩
      else 0

/-- The covariance matrix of a noise at its own dimension
(`Cov().Symmetric() = cdim`): empty for `None`, zero for `Zero`. -/
def GoNoise.covC {n : ℕ} : (g : GoNoise n) → Mtx g.cdim g.cdim
  | .none' => 0
  | .zero => 0
  | .gaussian c => c

namespace UKF

/-- `ukf.UKF.GenSigmaPoints` at augmented dimension `n`, with the results
of the gonum SVD factorisation of the block-diagonal covariance passed in:
`svdOk` is the convergence flag, `svdU` the `U` factor written into
`SqrtCov` (computed by the source and then never used), `svdVals` the
singular values and `sq` the `math.Sqrt` applied to them.  The sigma-point
covariance buffer is overwritten with `diag(sq(svdVals))` through
`SetSym` over the full index square, scaled by `gamma`, and added to /
subtracted from the columns holding the (zero-padded) query state. -/
def genSigmaPoints (n : ℕ) (gamma : ℚ) (covIn : Mtx n n) (svdOk : Bool)
    (svdU : Mtx n n) (svdVals : Fin n → ℚ) (sq : ℚ → ℚ) (x : List ℚ) :
    Option (Mtx n (2 * n + 1)) :=
  if svdOk then
    let diagSqrt : Mtx n n := Matrix.diagonal (fun i => sq (svdVals i))
    let covW : Mtx n n := fun i j => diagSqrt (max i j) (min i j)
    let covS : Mtx n n := gamma • covW
    some (fun i j =>
      if h0 : j.val = 0 then listToVec n x i
      else if hp : j.val ≤ n then
        listToVec n x i + covS i ⟨j.val - 1, by omega⟩
      else
        listToVec n x i - covS i ⟨j.val - 1 - n, by have := j.isLt; omega⟩)
  else none

/-- The state sub-vector `col[0:nx]` of an augmented sigma point. -/
def stateSlice {nx qd rd : ℕ} (col : Vec (nx + qd + rd)) : Vec nx :=
  fun i => col ⟨i.val, by have := i.isLt; omega⟩

/-- The process-noise sub-vector `col[nx : nx+qLen]` of an augmented sigma
point, as the dynamically sized vector handed to `Propagate`. -/
def noiseSliceList {nx qd rd : ℕ} (col : Vec (nx + qd + rd)) : List ℚ :=
  (List.finRange qd).map (fun k => col ⟨nx + k.val, by have := k.isLt; omega⟩)

/-- The columns of a matrix, left to right. -/
def colsOf {m n : ℕ} (M : Mtx m n) : List (Vec m) :=
  (List.finRange n).map (fun j i => M i j)

/-- Weighted running sum `acc + wr • v` over a list of vectors. -/
def wSumTail {m : ℕ} (wr : ℚ) : List (Vec m) → Vec m
  | [] => 0
  | v :: rest => wr • v + wSumTail wr rest

/-- The sigma-point weighted mean: weight `w0` for column 0, `wr` for the
remaining columns. -/
def wMean {m : ℕ} (w0 wr : ℚ) : List (Vec m) → Vec m
  | [] => 0
  | v :: rest => w0 • v + wSumTail wr rest

/-- Weighted sum of outer products of centred pairs, weight `wr`. -/
def crossTail {a b : ℕ} (wr : ℚ) (mx : Vec a) (my : Vec b) :
    List (Vec a × Vec b) → Mtx a b
  | [] => 0
  | (vx, vy) :: rest =>
      wr • Matrix.vecMulVec (vx - mx) (vy - my) + crossTail wr mx my rest

/-- The weighted cross-covariance over the sigma set: weight `w0` for
column 0, `wr` for the rest. -/
def crossCov {a b : ℕ} (w0 wr : ℚ) (mx : Vec a) (my : Vec b) :
    List (Vec a × Vec b) → Mtx a b
  | [] => 0
  | (vx, vy) :: rest =>
      w0 • Matrix.vecMulVec (vx - mx) (vy - my) + crossTail wr mx my rest

/-- `ukf.UKF.propagateSigmaPoints`: each sigma point's state slice is
propagated with its own noise slice (`nil` when the process noise block is
empty). -/
def propagateSP {nx : ℕ} (qd rd : ℕ)
    (prop : Vec nx → Option (List ℚ) → Option (List ℚ) → Option (Vec nx))
    (u : Option (List ℚ)) : List (Vec (nx + qd + rd)) → Option (List (Vec nx))
  | [] => some []
  | c :: rest =>
      let narg : Option (List ℚ) :=
        if qd = 0 then none else some (noiseSliceList c)
      match prop (stateSlice c) u narg with
      | none => none
      | some xc => (propagateSP qd rd prop u rest).map (fun l => xc :: l)

/-- The sigma-point observation loop of `ukf.UKF.Update`: each propagated
sigma point is observed, with a fresh measurement-noise sample drawn from
the stream per column (`nil` when the measurement noise block is empty). -/
def obsFold {nx ny : ℕ}
    (obs : Vec nx → Option (List ℚ) → Option (List ℚ) → Option (Vec ny))
    (r : GoNoise ny) (u : Option (List ℚ)) :
    List (Vec nx) → List ℚ → Option (List (Vec ny) × List ℚ)
  | [], s => some ([], s)
  | c :: rest, s =>
      let draw : Option (List ℚ) × List ℚ :=
        if r.cdim = 0 then (none, s)
        else (some (r.sampleF s).1, (r.sampleF s).2)
      match obs c u draw.1 with
      | none => none
      | some yc =>
          match obsFold obs r u rest draw.2 with
          | none => none
          | some (ys, s2) => some (yc :: ys, s2)

/-- `ukf.UKF.predictCovariance`: weighted outer products of the centred
propagated sigma points, accumulated into the upper triangle of a
`SymDense`. -/
def predictCovariance {m : ℕ} (wc0 wr : ℚ) (mean : Vec m)
    (vs : List (Vec m)) : Mtx m m :=
  symmUpper (crossCov wc0 wr mean mean (vs.zip vs))

/-- `ukf.UKF.Predict`: generate sigma points around `x` from the
block-diagonal `[P, Q, R]` covariance, propagate the query state with a
process-noise sample, propagate every sigma point, and reconstruct the
weighted mean and covariance.  Returns the estimate, the new internal
sigma-point prediction state, and the rest of the random stream. -/
def predict {nx nu ny : ℕ} (m : DModel nx nu ny) (q : GoNoise nx)
    (r : GoNoise ny) (gamma Wm0 Wc0 W : ℚ) (p : Mtx nx nx) (svdOk : Bool)
    (svdU : Mtx (nx + q.cdim + r.cdim) (nx + q.cdim + r.cdim))
    (svdVals : Fin (nx + q.cdim + r.cdim) → ℚ) (sq : ℚ → ℚ)
    (x : Vec nx) (u : Option (List ℚ)) (s : List ℚ) :
    Outcome ((Vec nx × Mtx nx nx) × (List (Vec nx) × Vec nx) × List ℚ) :=
  match genSigmaPoints (nx + q.cdim + r.cdim) gamma
      (blockDiag3 nx q.cdim r.cdim p q.covC r.covC) svdOk svdU svdVals sq
      (vecToList x) with
  | none => .err
  | some sp =>
      let qdraw := q.sampleF s
      match m.propagate x u (some qdraw.1) with
      | none => .err
      | some xNext =>
          match propagateSP q.cdim r.cdim m.propagate u (colsOf sp) with
          | none => .err
          | some cols =>
              let xMean := wMean Wm0 W cols
              let cov := predictCovariance Wc0 W xMean cols
              .ok ((xNext, cov), (cols, xMean), qdraw.2)

/-- `ukf.UKF.Update`: measurement-length check, observation of every
propagated sigma point, weighted output mean, cross and output
covariances, gain `K = Pxy·Pyy⁻¹`, state correction anchored at the
sigma-point mean written through the `x.(*mat.VecDense)` assertion, and
covariance correction `P' − K·Pyy·Kᵀ` written into a `SymDense`. -/
def update {nx ny : ℕ}
    (obs : Vec nx → Option (List ℚ) → Option (List ℚ) → Option (Vec ny))
    (r : GoNoise ny) (Wm0 Wc0 W : ℚ) (spCols : List (Vec nx))
    (xMean : Vec nx) (pNext : Mtx nx nx) (x : GoVector nx)
    (u : Option (List ℚ)) (z : List ℚ) (s : List ℚ) :
    Outcome (Vec nx × Mtx nx nx) :=
  if z.length ≠ ny then .err
  else
    match obsFold obs r u spCols s with
    | none => .err
    | some (ys, _) =>
        let yMean := wMean Wm0 W ys
        let pxy := crossCov Wc0 W xMean yMean (spCols.zip ys)
        let pyy := crossCov Wc0 W yMean yMean (ys.zip ys)
        match qInv pyy with
        | none => .err
        | some pyyInv =>
            let gain := pxy * pyyInv
            let inn := listToVec ny z - yMean
            match x with
            | .basicVec _ => .crash
            | .vecDense _ =>
                let xNew := xMean + gain.mulVec inn
                let pCorr := pNext - gain * pyy * gainᵀ
                .ok (xNew, symmUpper pCorr)

/-- `ukf.UKF.Run`: `Predict` then `Update` on the predicted state. -/
def run {nx nu ny : ℕ} (m : DModel nx nu ny) (q : GoNoise nx)
    (r : GoNoise ny) (gamma Wm0 Wc0 W : ℚ) (p : Mtx nx nx) (svdOk : Bool)
    (svdU : Mtx (nx + q.cdim + r.cdim) (nx + q.cdim + r.cdim))
    (svdVals : Fin (nx + q.cdim + r.cdim) → ℚ) (sq : ℚ → ℚ)
    (x : Vec nx) (u : Option (List ℚ)) (z : List ℚ) (s : List ℚ) :
    Outcome (Vec nx × Mtx nx nx) :=
  match predict m q r gamma Wm0 Wc0 W p svdOk svdU svdVals sq x u s with
  | .err => .err
  | .crash => .crash
  | .ok ((xNext, pN), (cols, xMean), s1) =>
      update m.observe r Wm0 Wc0 W cols xMean pN (.vecDense xNext) u z s1

/-- The `ukf.Config` shape parameters. -/
structure Config where
  alpha : ℚ
  beta : ℚ
  kappa : ℚ

/-- `ukf.New` with dynamic dimensions: model dimensions `nx`, `ny`, the
initial-condition state length, and the covariance dimensions of the two
optional noises (`Option.none` embeds a `nil` noise argument).  Mirrors
the source validation: positive model dimensions and noise dimensions
matching `nx`/`ny`.  On success it returns the derived unitless parameters
`(gamma, Wm0, Wc0, W)` of the constructed filter; `sq` stands for
`math.Sqrt`. -/
def new (nx ny : ℤ) (initStateLen : ℕ) (qdim rdim : Option ℕ)
    (c : Config) (sq : ℚ → ℚ) : Option (ℚ × ℚ × ℚ × ℚ) :=
  if nx ≤ 0 ∨ ny ≤ 0 then none
  else
    let spq : Option ℕ :=
      match qdim with
      | some d => if (d : ℤ) ≠ nx then none else some (initStateLen + d)
      | none => some initStateLen
    match spq with
    | none => none
    | some sp1 =>
        let spr : Option ℕ :=
          match rdim with
          | some d => if (d : ℤ) ≠ ny then none else some (sp1 + d)
          | none => some sp1
        match spr with
        | none => none
        | some spDim =>
            let lambda : ℚ :=
              c.alpha * c.alpha * ((spDim : ℚ) + c.kappa) - (spDim : ℚ)
            let gamma := sq ((spDim : ℚ) + lambda)
            let wm0 := lambda / ((spDim : ℚ) + lambda)
            let wc0 := wm0 + (1 - c.alpha * c.alpha + c.beta)
            let w := 1 / (2 * ((spDim : ℚ) + lambda))
            some (gamma, wm0, wc0, w)

end UKF

namespace GoRand

/-- `floats.CumSum` written with its running accumulator: entry `i` of the
result is the sum of the first `i+1` entries of `p`. -/
def cumSumFrom (acc : ℚ) : List ℚ → List ℚ
  | [] => []
  | x :: xs => (acc + x) :: cumSumFrom (acc + x) xs

/-- `floats.CumSum`: running prefix sums of a weight slice. -/
def cumSum (p : List ℚ) : List ℚ := cumSumFrom 0 p

/-- `sort.Search(len(cdf), func(i) { return cdf[i] > val })`: the smallest
index whose entry exceeds `val`, or `len(cdf)` when there is none (the
prefix sums of a non-negative slice are non-decreasing, so the binary
search agrees with the linear scan). -/
def sortSearch (cdf : List ℚ) (v : ℚ) : ℕ := cdf.findIdx (fun c => v < c)

/-- `rand.RouletteDrawN`: an error on an empty (or nil) weight slice,
otherwise `n` indices obtained by scaling a fresh uniform draw from `us`
by the final prefix sum and binary-searching the prefix-sum slice. -/
def rouletteDrawN (p : List ℚ) (n : ℕ) (us : ℕ → ℚ) : Option (List ℕ) :=
  if p.length = 0 then none
  else
    let cdf := cumSum p
    some ((List.range n).map (fun i => sortSearch cdf (us i * cdf.getLastD 0)))

end GoRand

namespace BF

/-- The per-particle observation loop of `bf.BF.Update`: observe every
particle column with an independent measurement-noise sample drawn from
the stream. -/
def obsFoldP {nx ny : ℕ}
    (obs : Vec nx → Option (List ℚ) → Option (List ℚ) → Option (Vec ny))
    (r : GoNoise ny) (u : Option (List ℚ)) :
    List (Vec nx) → List ℚ → Option (List (Vec ny) × List ℚ)
  | [], s => some ([], s)
  | c :: rest, s =>
      let draw := r.sampleF s
      match obs c u (some draw.1) with
      | none => none
      | some yc =>
          match obsFoldP obs r u rest draw.2 with
          | none => none
          | some (ys, s2) => some (yc :: ys, s2)

/-- The innovation slice `b.inn`: `z[i] − yPred[i][c]` for one particle. -/
def innList (ny : ℕ) (z : List ℚ) (yc : Vec ny) : List ℚ :=
  (List.finRange ny).map (fun i => z.getD i.val 0 - yc i)

/-- `bf.BF.Update`: measurement-length check against the preallocated
innovation buffer (length `ny`), per-particle observation, multiplicative
weight update by `exp(errPDF.LogProb(inn))` (`pdf` embeds the composite
`math.Exp ∘ LogProb`, which is strictly positive over the reals),
normalisation by `floats.Scale(1/floats.Sum(w), w)`, and the
weighted-average state estimate. -/
def update {nx nu ny : ℕ} (m : DModel nx nu ny) (r : GoNoise ny)
    (pdf : List ℚ → ℚ) (w : List ℚ) (xcols : List (Vec nx))
    (u : Option (List ℚ)) (z : List ℚ) (s : List ℚ) :
    Outcome (Vec nx × List ℚ) :=
  if z.length ≠ ny then .err
  else
    match obsFoldP m.observe r u xcols s with
    | none => .err
    | some (ys, _) =>
        let w1 := (w.zip ys).map (fun wy => wy.1 * pdf (innList ny z wy.2))
        let w2 := w1.map (fun v => 1 / w1.sum * v)
        let xEst : Vec nx := fun ri =>
          ((w2.zip xcols).map (fun wx => wx.1 * wx.2 ri)).sum
        .ok (xEst, w2)

/-- `bf.BF.Resample`: draw `len(w)` particle indices by roulette wheel over
the current weights, replace the particle columns with clones of the
selected ones (an out-of-range index panics inside `ColView`), reset all
weights to `1/len(w)`, then perturb every particle by `alpha` times a
random draw with the sample covariance of the resampled set.  `jitter` is
the result of `rand.WithCovN` on that covariance (`none` embeds its SVD
failure) and `alphaOpt` stands for the irrational `AlphaGauss(rows, cols)`
used when `alpha ≤ 0`. -/
def resample {nx : ℕ} (w : List ℚ) (xcols : List (Vec nx)) (us : ℕ → ℚ)
    (jitter : Option (List (Vec nx))) (alpha alphaOpt : ℚ) :
    Outcome (List ℚ × List (Vec nx)) :=
  match GoRand.rouletteDrawN w w.length us with
  | none => .err
  | some indices =>
      if hidx : ∀ i ∈ indices, i < xcols.length then
        let newX := indices.map (fun i => xcols.getD i 0)
        let w1 := List.replicate w.length ((1 : ℚ) / (w.length : ℚ))
        match jitter with
        | none => .err
        | some jl =>
            let a := if alpha ≤ 0 then alphaOpt else alpha
            let newX2 := (newX.zip jl).map (fun xj => xj.1 + a • xj.2)
            .ok (w1, newX2)
      else .crash

end BF

namespace RTS

/-- An `estimate.Base`: a state value with its covariance. -/
structure REst (nx : ℕ) where
  val : Vec nx
  cov : Mtx nx nx
  deriving DecidableEq

/-- One backward smoothing step of `rts.RTS.Smooth` at forward estimate
`e` with input `uu` and smoothed anchor `anchor`: re-propagate the
estimate one step (state through the model with a process-noise sample,
covariance through `A·P·Aᵀ (+Q)`), invert the one-step-ahead covariance,
form the smoothing gain `C = P·Aᵀ·P₁⁻¹` and correct state and covariance,
the latter written into a `SymDense`. -/
def rtsStep {nx nu ny : ℕ} (m : DCtl nx nu ny) (q : GoNoise nx)
    (e : REst nx) (uu : Option (List ℚ)) (anchor : REst nx) (qs : List ℚ) :
    Option (REst nx) :=
  match m.propagate e.val uu (some qs) with
  | none => none
  | some xk1 =>
      let pk1a := m.A * e.cov * (m.A)ᵀ
      let pk1 := match q.covOpt with
        | some qc => pk1a + qc
        | none => pk1a
      match qInv pk1 with
      | none => none
      | some pinv =>
          let c := e.cov * (m.A)ᵀ * pinv
          let x := e.val + c.mulVec (anchor.val - xk1)
          let pk := e.cov + c * (anchor.cov - pk1) * cᵀ
          some ⟨x, symmUpper pk⟩

/-- The backward loop of `Smooth`, written as structural recursion: the
estimates at later indices are smoothed first (consuming the random
stream first), and each estimate is corrected against the head of the
already-smoothed tail, or against the initial condition for the last
index. -/
def smoothAux {nx nu ny : ℕ} (m : DCtl nx nu ny) (q : GoNoise nx)
    (start : REst nx) :
    List (REst nx × Option (List ℚ)) → List ℚ →
      Option (List (REst nx) × List ℚ)
  | [], s => some ([], s)
  | p :: rest, s =>
      match smoothAux m q start rest s with
      | none => none
      | some (tail, s1) =>
          let anchor := tail.headD start
          let draw := q.sampleF s1
          match rtsStep m q p.1 p.2 anchor draw.1 with
          | none => none
          | some sm => some (sm :: tail, draw.2)

/-- `rts.RTS.Smooth`: fails when the forward-estimate slice is nil
(`Option.none` embeds a nil slice), or when the input slice is non-nil
with a different length; otherwise runs the backward smoothing recursion
anchored at the initial condition. -/
def smooth {nx nu ny : ℕ} (m : DCtl nx nu ny) (q : GoNoise nx)
    (start : REst nx) (est : Option (List (REst nx)))
    (u : Option (List (List ℚ))) (s : List ℚ) : Option (List (REst nx)) :=
  match est with
  | none => none
  | some l =>
      let uok : Option (List (Option (List ℚ))) :=
        match u with
        | some ul =>
            if ul.length ≠ l.length then none else some (ul.map some)
        | none => some (List.replicate l.length none)
      match uok with
      | none => none
      | some us => (smoothAux m q start (l.zip us) s).map (fun res => res.1)

end RTS

/-! ### General lemmas -/

theorem symmUpper_entry_symm {n : ℕ} (M : Mtx n n) (i j : Fin n) :
    symmUpper M i j = symmUpper M j i := by
  simp [symmUpper, min_comm, max_comm]

/-! ### Concrete fixtures: the falling-ball system of the test suite -/

/-- The `2`-state/`1`-input/`1`-output linear system used by the
repository's test fixtures (`A=[[1,1],[0,1]]`, `B=[[0.5],[1]]`,
`C=[[1,0]]`, `D=[[0]]`). -/
def demoSys : DCtl 2 1 1 := linSys !![1, 1; 0, 1] !![1/2; 1] !![1, 0] !![0]

/-- A trivial one-dimensional linear system. -/
def oneSys : DCtl 1 1 1 := linSys !![1] !![1] !![1] !![0]

/-! ### C4: wrong measurement length is rejected everywhere -/

/-- C4: for each filter in the family (KF, EKF, IEKF, UKF, BF), `Update`
with a measurement vector whose length differs from the model output
dimension `ny` returns an error and no estimate. -/
theorem update_rejects_wrong_measurement_length {nx nu ny : ℕ}
    (m : DCtl nx nu ny) (md : DModel nx nu ny) (r : GoNoise ny)
    (pNext : Mtx nx nx) (x : GoVector nx) (u : Option (List ℚ))
    (z : List ℚ) (rs : List ℚ) (h : ℚ) (n : ℕ) (Wm0 Wc0 W : ℚ)
    (spCols : List (Vec nx)) (xMean : Vec nx) (pdf : List ℚ → ℚ)
    (w : List ℚ) (xcols : List (Vec nx)) (s : List ℚ)
    (hz : z.length ≠ ny) :
    KF.update m r pNext x u z rs = .err ∧
    EKF.update md r pNext x u z rs h = .err ∧
    IEKF.update md r pNext n x u z rs h = .err ∧
    UKF.update md.observe r Wm0 Wc0 W spCols xMean pNext x u z s = .err ∧
    BF.update md r pdf w xcols u z s = .err := by
  refine ⟨?_, ?_, ?_, ?_, ?_⟩ <;>
    simp [KF.update, EKF.update, IEKF.update, UKF.update, BF.update, hz]

/-- Witness for C4 at the one-dimensional fixture with an empty
measurement. -/
theorem update_rejects_wrong_measurement_length_witness :
    KF.update oneSys .none' 1 (.vecDense 0) (some [0]) [] [] = .err ∧
    EKF.update oneSys.toDModel .none' 1 (.vecDense 0) (some [0]) [] [] 1
      = .err ∧
    IEKF.update oneSys.toDModel .none' 1 1 (.vecDense 0) (some [0]) [] [] 1
      = .err ∧
    UKF.update oneSys.observe .none' 0 0 0 [] 0 1 (.vecDense 0) (some [0])
      [] [] = .err ∧
    BF.update oneSys.toDModel .none' (fun _ => 1) [1] [0] (some [0]) [] []
      = .err :=
  update_rejects_wrong_measurement_length oneSys oneSys.toDModel .none' 1
    (.vecDense 0) (some [0]) [] [] 1 1 0 0 0 [] 0 (fun _ => 1) [1] [0] []
    (by decide)

/-! ### C5: returned covariance is symmetric -/

/-- C5: after every successful `Update` of KF, EKF, IEKF or UKF, the
covariance matrix returned in the estimate satisfies `P[i][j] = P[j][i]`
for all index pairs. -/
theorem update_covariance_symmetric {nx nu ny : ℕ}
    (m : DCtl nx nu ny) (md : DModel nx nu ny) (r : GoNoise ny)
    (pNext : Mtx nx nx) (x : GoVector nx) (u : Option (List ℚ))
    (z : List ℚ) (rs : List ℚ) (h : ℚ) (n : ℕ) (Wm0 Wc0 W : ℚ)
    (spCols : List (Vec nx)) (xMean : Vec nx) (s : List ℚ) :
    (∀ xe P, KF.update m r pNext x u z rs = .ok (xe, P) →
      ∀ i j, P i j = P j i) ∧
    (∀ xe P, EKF.update md r pNext x u z rs h = .ok (xe, P) →
      ∀ i j, P i j = P j i) ∧
    (∀ xe P, IEKF.update md r pNext n x u z rs h = .ok (xe, P) →
      ∀ i j, P i j = P j i) ∧
    (∀ xe P, UKF.update md.observe r Wm0 Wc0 W spCols xMean pNext x u z s
        = .ok (xe, P) → ∀ i j, P i j = P j i) := by
  refine ⟨?_, ?_, ?_, ?_⟩ <;>
    · intro xe P hok i j
      first
      | (unfold KF.update at hok)
      | (unfold EKF.update at hok)
      | (unfold IEKF.update at hok)
      | (unfold UKF.update at hok)
      repeat' first
        | split at hok
        | dsimp only at hok
      all_goals
        first
        | (cases hok; exact symmUpper_entry_symm _ i j)
        | (cases hok; simp)
        | simp at hok

/-- The payload of an `ok` outcome, with a default elsewhere. -/
def Outcome.valD {α : Type} (o : Outcome α) (d : α) : α :=
  match o with
  | .ok a => a
  | _ => d

/-- Witness for C5: concrete successful updates of all four filters on the
one-dimensional fixture, with the returned covariance symmetric. -/
theorem update_covariance_symmetric_witness :
    (∃ est, KF.update oneSys (.gaussian 1) 1 (.vecDense 1) (some [0]) [1]
        [0] = .ok est ∧ ∀ i j, est.2 i j = est.2 j i) ∧
    (∃ est, EKF.update oneSys.toDModel (.gaussian 1) 1 (.vecDense 1)
        (some [0]) [1] [0] 1 = .ok est ∧ ∀ i j, est.2 i j = est.2 j i) ∧
    (∃ est, IEKF.update oneSys.toDModel (.gaussian 1) 1 1 (.vecDense 1)
        (some [0]) [1] [0] 1 = .ok est ∧ ∀ i j, est.2 i j = est.2 j i) ∧
    (∃ est, UKF.update oneSys.observe (.gaussian 1) (1/3) (1/3) (1/3)
        [fun _ => 0, fun _ => 1, fun _ => -1] 0 1 (.vecDense 1) (some [0])
        [1] [0] = .ok est ∧ ∀ i j, est.2 i j = est.2 j i) := by
  have hth := update_covariance_symmetric oneSys oneSys.toDModel
    (.gaussian 1) 1 (.vecDense 1) (some [0]) [1] [0] 1 1 (1/3) (1/3) (1/3)
    [fun _ => 0, fun _ => 1, fun _ => -1] 0 [0]
  have h1 : KF.update oneSys (.gaussian 1) 1 (.vecDense 1) (some [0]) [1]
      [0] = .ok ((KF.update oneSys (.gaussian 1) 1 (.vecDense 1)
        (some [0]) [1] [0]).valD (0, 0)) := by with_unfolding_all decide
  have h2 : EKF.update oneSys.toDModel (.gaussian 1) 1 (.vecDense 1)
      (some [0]) [1] [0] 1
      = .ok ((EKF.update oneSys.toDModel (.gaussian 1) 1 (.vecDense 1)
        (some [0]) [1] [0] 1).valD (0, 0)) := by with_unfolding_all decide
  have h3 : IEKF.update oneSys.toDModel (.gaussian 1) 1 1 (.vecDense 1)
      (some [0]) [1] [0] 1
      = .ok ((IEKF.update oneSys.toDModel (.gaussian 1) 1 1 (.vecDense 1)
        (some [0]) [1] [0] 1).valD (0, 0)) := by with_unfolding_all decide
  have h4 : UKF.update oneSys.observe (.gaussian 1) (1/3) (1/3) (1/3)
      [fun _ => 0, fun _ => 1, fun _ => -1] 0 1 (.vecDense 1) (some [0])
      [1] [0]
      = .ok ((UKF.update oneSys.observe (.gaussian 1) (1/3) (1/3) (1/3)
        [fun _ => 0, fun _ => 1, fun _ => -1] 0 1 (.vecDense 1)
        (some [0]) [1] [0]).valD (0, 0)) := by with_unfolding_all decide
  exact ⟨⟨_, h1, fun i j => hth.1 _ _ h1 i j⟩,
    ⟨_, h2, fun i j => hth.2.1 _ _ h2 i j⟩,
    ⟨_, h3, fun i j => hth.2.2.1 _ _ h3 i j⟩,
    ⟨_, h4, fun i j => hth.2.2.2 _ _ h4 i j⟩⟩

/-! ### C1: the Joseph-form covariance write -/

/-- C1: an `Update` call that passes the measurement-length check and whose
innovation-covariance inversion succeeds does not store the Joseph-form
covariance when the measurement noise is the `None` variant — for KF, EKF
and IEKF alike it reads an empty matrix and panics, on the test fixtures
at `x = [1,1]` (resp. `[1]`), `u = [-1]` (resp. `[0]`), `z = [-1.5]`
(resp. `[1]`). -/
theorem update_none_measurement_noise_crashes :
    KF.update demoSys .none' 1 (.vecDense ![1, 1]) (some [-1]) [-3/2] []
      = .crash ∧
    EKF.update oneSys.toDModel .none' 1 (.vecDense 1) (some [0]) [1] [] 1
      = .crash ∧
    IEKF.update oneSys.toDModel .none' 1 1 (.vecDense 1) (some [0]) [1] []
      1 = .crash := by
  refine ⟨by with_unfolding_all decide, by with_unfolding_all decide,
    by with_unfolding_all decide⟩

/-! ### C8: roulette-wheel index drawing -/

theorem cumSumFrom_length (acc : ℚ) (p : List ℚ) :
    (GoRand.cumSumFrom acc p).length = p.length := by
  induction p generalizing acc with
  | nil => rfl
  | cons x xs ih => simp [GoRand.cumSumFrom, ih]

theorem cumSumFrom_getLastD (acc d : ℚ) (p : List ℚ) (hp : p ≠ []) :
    (GoRand.cumSumFrom acc p).getLastD d = acc + p.sum := by
  induction p generalizing acc d with
  | nil => exact absurd rfl hp
  | cons x xs ih =>
      cases xs with
      | nil => simp [GoRand.cumSumFrom]
      | cons y ys =>
          rw [GoRand.cumSumFrom, List.getLastD_cons, ih _ _ (by simp)]
          push_cast [List.sum_cons]
          ring

theorem getLastD_mem {α : Type} (l : List α) (d : α) (hl : l ≠ []) :
    l.getLastD d ∈ l := by
  induction l generalizing d with
  | nil => exact absurd rfl hl
  | cons x xs ih =>
      cases xs with
      | nil => simp
      | cons y ys =>
          rw [List.getLastD_cons]
          exact List.mem_cons_of_mem _ (ih _ (by simp))

theorem sum_pos_of_nonneg_of_mem_pos {l : List ℚ}
    (hnn : ∀ x ∈ l, 0 ≤ x) (hpos : ∃ x ∈ l, 0 < x) : 0 < l.sum := by
  induction l with
  | nil => simp at hpos
  | cons x xs ih =>
      obtain ⟨y, hy, hy0⟩ := hpos
      rw [List.sum_cons]
      rcases List.mem_cons.mp hy with h | h
      · have : (0:ℚ) ≤ xs.sum :=
          List.sum_nonneg (fun z hz => hnn z (List.mem_cons_of_mem _ hz))
        subst h
        linarith
      · have hx : (0:ℚ) ≤ x := hnn x (List.mem_cons_self x xs)
        have : (0:ℚ) < xs.sum :=
          ih (fun z hz => hnn z (List.mem_cons_of_mem _ hz)) ⟨y, h, hy0⟩
        linarith

/-- C8 (amended): for a non-empty, non-negative weight vector with at
least one positive entry and uniform draws in `[0,1)`, `RouletteDrawN`
returns exactly `n` indices, each in range; it fails exactly on an
empty (nil) weight vector. -/
theorem rouletteDrawN_spec (p : List ℚ) (n : ℕ) (us : ℕ → ℚ)
    (hne : p ≠ []) (hnn : ∀ x ∈ p, 0 ≤ x) (hpos : ∃ x ∈ p, 0 < x)
    (hus : ∀ i, 0 ≤ us i ∧ us i < 1) :
    (∀ q : List ℚ, (GoRand.rouletteDrawN q n us = none ↔ q = [])) ∧
    ∃ idxs, GoRand.rouletteDrawN p n us = some idxs ∧ idxs.length = n ∧
      ∀ j ∈ idxs, j < p.length := by
  constructor
  · intro q
    constructor
    · intro hq
      by_contra hqe
      have : q.length ≠ 0 := fun h => hqe (List.eq_nil_of_length_eq_zero h)
      simp [GoRand.rouletteDrawN, this] at hq
    · intro hq
      subst hq
      simp [GoRand.rouletteDrawN]
  · have hlen : p.length ≠ 0 := fun h => hne (List.eq_nil_of_length_eq_zero h)
    have hres : GoRand.rouletteDrawN p n us
        = some ((List.range n).map (fun i =>
            GoRand.sortSearch (GoRand.cumSum p)
              (us i * (GoRand.cumSum p).getLastD 0))) := by
      unfold GoRand.rouletteDrawN
      simp [hlen]
    refine ⟨_, hres, by simp, ?_⟩
    intro j hj
    simp only [List.mem_map, List.mem_range] at hj
    obtain ⟨i, -, hji⟩ := hj
    subst hji
    have hcne : GoRand.cumSum p ≠ [] := by
      intro h
      apply hlen
      have hl := cumSumFrom_length 0 p
      rw [show GoRand.cumSumFrom 0 p = GoRand.cumSum p from rfl, h] at hl
      exact hl.symm
    have hsum : (GoRand.cumSum p).getLastD 0 = p.sum := by
      simpa using cumSumFrom_getLastD 0 0 p hne
    have hspos : 0 < p.sum := sum_pos_of_nonneg_of_mem_pos hnn hpos
    have hvlt : us i * (GoRand.cumSum p).getLastD 0
        < (GoRand.cumSum p).getLastD 0 := by
      rw [hsum]
      calc us i * p.sum < 1 * p.sum :=
            mul_lt_mul_of_pos_right (hus i).2 hspos
        _ = p.sum := one_mul _
    have hexb : ∃ x ∈ GoRand.cumSum p,
        (fun c => decide (us i * (GoRand.cumSum p).getLastD 0 < c)) x
          = true :=
      ⟨_, getLastD_mem _ _ hcne, decide_eq_true hvlt⟩
    have hlt := List.findIdx_lt_length_of_exists hexb
    have hll : (GoRand.cumSum p).length = p.length := cumSumFrom_length 0 p
    unfold GoRand.sortSearch
    exact lt_of_lt_of_le hlt (le_of_eq hll)

/-- Witness for C8 (amended) at `p = [1,1]`, `n = 2`, draws `1/2`. -/
theorem rouletteDrawN_spec_witness :
    (∀ q : List ℚ,
      (GoRand.rouletteDrawN q 2 (fun _ => 1/2) = none ↔ q = [])) ∧
    ∃ idxs, GoRand.rouletteDrawN [1, 1] 2 (fun _ => 1/2) = some idxs ∧
      idxs.length = 2 ∧ ∀ j ∈ idxs, j < ([1, 1] : List ℚ).length :=
  rouletteDrawN_spec [1, 1] 2 (fun _ => 1/2) (by simp)
    (by intro x hx; rcases List.mem_cons.mp hx with h | h <;> simp_all)
    ⟨1, by simp, by norm_num⟩ (fun i => ⟨by norm_num, by norm_num⟩)

/-- C8 counterexample: the all-zero weight vector `[0,0]` is non-empty and
non-negative, and with the single in-range uniform draw `1/2` the call
succeeds and returns index `2`, which is not a valid index into `p`. -/
theorem rouletteDrawN_zero_weights_out_of_range :
    GoRand.rouletteDrawN [0, 0] 1 (fun _ => 1/2) = some [2] ∧
    (∀ x ∈ ([0, 0] : List ℚ), 0 ≤ x) ∧
    ((0:ℚ) ≤ 1/2 ∧ (1/2 : ℚ) < 1) ∧
    ¬(∀ j ∈ [2], j < ([0, 0] : List ℚ).length) := by
  refine ⟨by with_unfolding_all decide, by with_unfolding_all decide,
    by norm_num, by decide⟩

/-! ### C6: particle weight normalisation -/

theorem obsFoldP_length {nx ny : ℕ}
    (obs : Vec nx → Option (List ℚ) → Option (List ℚ) → Option (Vec ny))
    (r : GoNoise ny) (u : Option (List ℚ)) :
    ∀ (xs : List (Vec nx)) (s : List ℚ) (ys : List (Vec ny)) (s2 : List ℚ),
      BF.obsFoldP obs r u xs s = some (ys, s2) → ys.length = xs.length := by
  intro xs
  induction xs with
  | nil =>
      intro s ys s2 hobs
      simp [BF.obsFoldP] at hobs
      simp [hobs.1]
  | cons c rest ih =>
      intro s ys s2 hobs
      unfold BF.obsFoldP at hobs
      repeat' first
        | split at hobs
        | dsimp only at hobs
      all_goals simp_all
      rename_i ys2 s3 heq
      obtain ⟨hy, -⟩ := hobs
      rw [← hy]
      simpa using ih _ _ _ heq

theorem list_sum_map_mul (c : ℚ) (l : List ℚ) :
    (l.map (fun v => c * v)).sum = c * l.sum := by
  induction l with
  | nil => simp
  | cons x xs ih => simp [ih, mul_add]

/-- C6: after a successful BF `Update` starting from a particle set whose
weights are all positive (the invariant established at construction and
after every resample) and a positive output-error likelihood (as
`exp(LogProb(..))` always is over the reals), the stored weight vector is
non-negative and sums to 1; after a successful BF `Resample`, every weight
equals `1/particleCount`. -/
theorem bf_weights_normalized {nx nu ny : ℕ} (m : DModel nx nu ny)
    (r : GoNoise ny) (pdf : List ℚ → ℚ) (w : List ℚ)
    (xcols : List (Vec nx)) (u : Option (List ℚ)) (z : List ℚ)
    (s : List ℚ) (us : ℕ → ℚ) (jitter : Option (List (Vec nx)))
    (alpha alphaOpt : ℚ) (hw : ∀ x ∈ w, 0 < x) (hwne : w ≠ [])
    (hlen : xcols.length = w.length) (hpdf : ∀ l, 0 < pdf l) :
    (∀ xe w2, BF.update m r pdf w xcols u z s = .ok (xe, w2) →
      (∀ x ∈ w2, 0 ≤ x) ∧ w2.sum = 1) ∧
    (∀ w2 xs2, BF.resample w xcols us jitter alpha alphaOpt
        = .ok (w2, xs2) → ∀ x ∈ w2, x = 1 / (w.length : ℚ)) := by
  constructor
  · intro xe w2 hok
    by_cases hz : z.length ≠ ny
    · simp [BF.update, hz] at hok
    · unfold BF.update at hok
      rw [if_neg hz] at hok
      cases hobs : BF.obsFoldP m.observe r u xcols s with
      | none => rw [hobs] at hok; simp at hok
      | some yp =>
          obtain ⟨ys, s2⟩ := yp
          rw [hobs] at hok
          dsimp only at hok
          cases hok
          have hyslen : ys.length = xcols.length :=
            obsFoldP_length m.observe r u xcols s ys s2 hobs
          have hw1pos : ∀ x ∈ (w.zip ys).map
              (fun wy => wy.1 * pdf (BF.innList ny z wy.2)), 0 < x := by
            intro x hx
            obtain ⟨⟨wc, yc⟩, hmem, hval⟩ := List.mem_map.mp hx
            have hwc : wc ∈ w := (List.of_mem_zip hmem).1
            rw [← hval]
            exact mul_pos (hw wc hwc) (hpdf _)
          have hw1ne : (w.zip ys).map
              (fun wy => wy.1 * pdf (BF.innList ny z wy.2)) ≠ [] := by
            intro hcon
            have h0 := congrArg List.length hcon
            simp [List.length_zip, hyslen, hlen] at h0
            exact hwne h0
          have hsumpos : 0 < ((w.zip ys).map
              (fun wy => wy.1 * pdf (BF.innList ny z wy.2))).sum := by
            apply sum_pos_of_nonneg_of_mem_pos
              (fun x hx => le_of_lt (hw1pos x hx))
            obtain ⟨a, as, ha⟩ := List.exists_cons_of_ne_nil hw1ne
            exact ⟨a, by rw [ha]; exact List.mem_cons_self a as,
              hw1pos a (by rw [ha]; exact List.mem_cons_self a as)⟩
          constructor
          · intro x hx
            obtain ⟨v, hv, hval⟩ := List.mem_map.mp hx
            rw [← hval]
            exact le_of_lt (mul_pos (by positivity) (hw1pos v hv))
          · rw [list_sum_map_mul]
            exact one_div_mul_cancel (ne_of_gt hsumpos)
  · intro w2 xs2 hok
    unfold BF.resample at hok
    repeat' first
      | split at hok
      | dsimp only at hok
    all_goals
      first
      | (cases hok
         intro x hx
         exact List.eq_of_mem_replicate hx)
      | simp at hok

/-- Witness for C6 on a two-particle one-dimensional filter. -/
theorem bf_weights_normalized_witness :
    (∃ st, BF.update oneSys.toDModel (.zero) (fun _ => 1) [1/2, 1/2]
        [fun _ => 0, fun _ => 1] (some [0]) [1] [] = .ok st ∧
      (∀ x ∈ st.2, 0 ≤ x) ∧ st.2.sum = 1) ∧
    (∃ rs2, BF.resample ([1/2, 1/2] : List ℚ)
        ([fun _ => 0, fun _ => 1] : List (Vec 1)) (fun _ => 1/2)
        (some [fun _ => 0, fun _ => 0]) 1 1 = .ok rs2 ∧
      ∀ x ∈ rs2.1, x = 1 / ((([1/2, 1/2] : List ℚ)).length : ℚ)) := by
  have hth := bf_weights_normalized oneSys.toDModel (.zero) (fun _ => 1)
    [1/2, 1/2] [fun _ => 0, fun _ => 1] (some [0]) [1] [] (fun _ => 1/2)
    (some [fun _ => 0, fun _ => 0]) 1 1
    (by intro x hx; rcases List.mem_cons.mp hx with h | h <;> simp_all)
    (by simp) (by simp) (fun _ => one_pos)
  have h1 : BF.update oneSys.toDModel (.zero) (fun _ => 1) [1/2, 1/2]
      [fun _ => 0, fun _ => 1] (some [0]) [1] []
      = .ok ((BF.update oneSys.toDModel (.zero) (fun _ => 1) [1/2, 1/2]
        [fun _ => 0, fun _ => 1] (some [0]) [1] []).valD (0, [])) := by
    with_unfolding_all decide
  have h2 : BF.resample ([1/2, 1/2] : List ℚ)
      ([fun _ => 0, fun _ => 1] : List (Vec 1)) (fun _ => 1/2)
      (some [fun _ => 0, fun _ => 0]) 1 1
      = .ok ((BF.resample ([1/2, 1/2] : List ℚ)
        ([fun _ => 0, fun _ => 1] : List (Vec 1)) (fun _ => 1/2)
        (some [fun _ => 0, fun _ => 0]) 1 1).valD ([], [])) := by
    with_unfolding_all decide
  exact ⟨⟨_, h1, hth.1 _ _ h1⟩, ⟨_, h2, hth.2 _ _ h2⟩⟩

/-! ### C7: RTS smoother shape -/

theorem zip_getD {α β : Type} (d1 : α) (d2 : β) :
    ∀ (l1 : List α) (l2 : List β) (i : ℕ), i < l1.length →
      i < l2.length →
      (l1.zip l2).getD i (d1, d2) = (l1.getD i d1, l2.getD i d2) := by
  intro l1
  induction l1 with
  | nil => intro l2 i h1 h2; simp at h1
  | cons x xs ih =>
      intro l2 i h1 h2
      cases l2 with
      | nil => simp at h2
      | cons y ys =>
          cases i with
          | zero => simp
          | succ k =>
              simp only [List.zip_cons_cons, List.getD_cons_succ]
              exact ih ys k (by simpa using h1) (by simpa using h2)

theorem map_some_getD (d : List ℚ) :
    ∀ (ul : List (List ℚ)) (i : ℕ), i < ul.length →
      (ul.map some).getD i none = some (ul.getD i d) := by
  intro ul
  induction ul with
  | nil => intro i h; simp at h
  | cons x xs ih =>
      intro i h
      cases i with
      | zero => simp
      | succ k =>
          simp only [List.map_cons, List.getD_cons_succ]
          exact ih k (by simpa using h)

theorem replicate_getD_none {α : Type} :
    ∀ (n i : ℕ), (List.replicate n (none : Option α)).getD i none
      = none := by
  intro n
  induction n with
  | zero => intro i; simp
  | succ k ih =>
      intro i
      cases i with
      | zero => simp
      | succ j => simpa using ih j

theorem smoothAux_spec {nx nu ny : ℕ} (m : DCtl nx nu ny) (q : GoNoise nx)
    (start : RTS.REst nx) :
    ∀ (pairs : List (RTS.REst nx × Option (List ℚ))) (s : List ℚ)
      (res : List (RTS.REst nx)) (s2 : List ℚ),
      RTS.smoothAux m q start pairs s = some (res, s2) →
      res.length = pairs.length ∧
      ∀ i, i < pairs.length → ∃ qs,
        RTS.rtsStep m q (pairs.getD i (⟨0, 0⟩, none)).1
            (pairs.getD i (⟨0, 0⟩, none)).2
            ((res.drop (i + 1)).headD start) qs
          = some (res.getD i ⟨0, 0⟩) := by
  intro pairs
  induction pairs with
  | nil =>
      intro s res s2 h
      simp only [RTS.smoothAux, Option.some.injEq] at h
      obtain ⟨h1, -⟩ := Prod.mk.injEq .. ▸ h
      constructor
      · simp [← h1]
      · intro i hi
        simp at hi
  | cons p rest ih =>
      intro s res s2 h
      unfold RTS.smoothAux at h
      cases haux : RTS.smoothAux m q start rest s with
      | none => rw [haux] at h; simp at h
      | some tp =>
          obtain ⟨tail, s1⟩ := tp
          rw [haux] at h
          dsimp only at h
          cases hstep : RTS.rtsStep m q p.1 p.2 (tail.headD start)
              (GoNoise.sampleF q s1).1 with
          | none => rw [hstep] at h; simp at h
          | some sm =>
              rw [hstep] at h
              simp only [Option.some.injEq] at h
              cases h
              obtain ⟨ihlen, ihstep⟩ := ih s tail s1 haux
              constructor
              · simp [ihlen]
              · intro i hi
                cases i with
                | zero =>
                    refine ⟨(GoNoise.sampleF q s1).1, ?_⟩
                    simpa using hstep
                | succ k =>
                    have hk : k < rest.length := by simpa using hi
                    obtain ⟨qs, hq⟩ := ihstep k hk
                    exact ⟨qs, by simpa using hq⟩

/-- C7: `Smooth(forwardEstimates, inputs)` errors when the estimate slice
is nil, or when the input slice is non-nil with a mismatched length;
whenever it succeeds it returns exactly one smoothed estimate per forward
estimate, and the estimate at index `i` is produced by the smoothing step
applied to forward estimate `i`, input `i`, and the smoothed estimate at
index `i+1` (the initial condition for the last index) — original
chronological order. -/
theorem rts_smooth_spec {nx nu ny : ℕ} (m : DCtl nx nu ny)
    (q : GoNoise nx) (start : RTS.REst nx) (u : Option (List (List ℚ)))
    (s : List ℚ) (l : List (RTS.REst nx)) :
    (RTS.smooth m q start none u s = none) ∧
    (∀ ul, u = some ul → ul.length ≠ l.length →
      RTS.smooth m q start (some l) u s = none) ∧
    (∀ res, RTS.smooth m q start (some l) u s = some res →
      res.length = l.length ∧
      ∀ i, i < l.length → ∃ qs,
        RTS.rtsStep m q (l.getD i ⟨0, 0⟩)
            (match u with
             | some ul => some (ul.getD i [])
             | none => none)
            ((res.drop (i + 1)).headD start) qs
          = some (res.getD i ⟨0, 0⟩)) := by
  refine ⟨rfl, ?_, ?_⟩
  · intro ul hu hne
    subst hu
    simp [RTS.smooth, hne]
  · intro res hres
    cases u with
    | none =>
        unfold RTS.smooth at hres
        dsimp only at hres
        cases haux : RTS.smoothAux m q start
            (l.zip (List.replicate l.length none)) s with
        | none => rw [haux] at hres; simp at hres
        | some rp =>
            obtain ⟨r1, s2⟩ := rp
            rw [haux] at hres
            simp only [Option.map_some', Option.some.injEq] at hres
            subst hres
            obtain ⟨hlen, hsteps⟩ := smoothAux_spec m q start _ s r1 s2 haux
            have hplen : (l.zip (List.replicate l.length
                (none : Option (List ℚ)))).length = l.length := by
              simp
            constructor
            · rw [hlen, hplen]
            · intro i hi
              obtain ⟨qs, hq⟩ := hsteps i (by rw [hplen]; exact hi)
              refine ⟨qs, ?_⟩
              rw [zip_getD _ _ _ _ i hi (by simpa using hi)] at hq
              rw [replicate_getD_none] at hq
              exact hq
    | some ul =>
        by_cases hul : ul.length = l.length
        · unfold RTS.smooth at hres
          dsimp only at hres
          rw [if_neg (by simp [hul])] at hres
          dsimp only at hres
          cases haux : RTS.smoothAux m q start (l.zip (ul.map some)) s with
          | none => rw [haux] at hres; simp at hres
          | some rp =>
              obtain ⟨r1, s2⟩ := rp
              rw [haux] at hres
              simp only [Option.map_some', Option.some.injEq] at hres
              subst hres
              obtain ⟨hlen, hsteps⟩ :=
                smoothAux_spec m q start _ s r1 s2 haux
              have hplen : (l.zip (ul.map some)).length = l.length := by
                simp [hul]
              constructor
              · rw [hlen, hplen]
              · intro i hi
                obtain ⟨qs, hq⟩ := hsteps i (by rw [hplen]; exact hi)
                refine ⟨qs, ?_⟩
                rw [zip_getD _ _ _ _ i hi (by simp; omega)] at hq
                rw [map_some_getD [] ul i (by omega)] at hq
                exact hq
        · exact absurd hres (by simp [RTS.smooth, hul])

/-- Witness for C7: a one-estimate smooth on the one-dimensional fixture
succeeds and matches the per-index correspondence. -/
theorem rts_smooth_spec_witness :
    ∃ res, RTS.smooth oneSys .none' (⟨1, 1⟩ : RTS.REst 1)
        (some [⟨1, 1⟩]) (some [[0]]) [] = some res ∧
      res.length = ([⟨1, 1⟩] : List (RTS.REst 1)).length ∧
      ∀ i, i < ([⟨1, 1⟩] : List (RTS.REst 1)).length → ∃ qs,
        RTS.rtsStep oneSys .none'
            (([⟨1, 1⟩] : List (RTS.REst 1)).getD i ⟨0, 0⟩)
            (some (([[0]] : List (List ℚ)).getD i []))
            ((res.drop (i + 1)).headD ⟨1, 1⟩) qs
          = some (res.getD i ⟨0, 0⟩) := by
  have hth := (rts_smooth_spec oneSys .none' (⟨1, 1⟩ : RTS.REst 1)
    (some [[0]]) [] [⟨1, 1⟩]).2.2
  have h1 : RTS.smooth oneSys .none' (⟨1, 1⟩ : RTS.REst 1)
      (some [⟨1, 1⟩]) (some [[0]]) []
      = some ((RTS.smooth oneSys .none' (⟨1, 1⟩ : RTS.REst 1)
        (some [⟨1, 1⟩]) (some [[0]]) []).getD []) := by
    with_unfolding_all decide
  obtain ⟨hlen, hsteps⟩ := hth _ h1
  exact ⟨_, h1, by simpa using hlen, hsteps⟩

/-! ### C10: the corrected state is written through a VecDense assertion -/

theorem iekf_step1_basic_not_ok {nx nu ny : ℕ} (m : DModel nx nu ny)
    (r : GoNoise ny) (pNext : Mtx nx nx) (u : Option (List ℚ))
    (inn : Vec ny) (h : ℚ) (v : Vec nx)
    (t : Vec nx × Mtx ny nx × Mtx nx ny) :
    IEKF.step1 m r pNext u inn h (.basicVec v) ≠ .ok t := by
  intro hok
  unfold IEKF.step1 at hok
  repeat' first
    | split at hok
    | dsimp only at hok
  all_goals simp_all

theorem iekf_iter_basic_not_ok {nx nu ny : ℕ} (m : DModel nx nu ny)
    (r : GoNoise ny) (pNext : Mtx nx nx) (u : Option (List ℚ))
    (inn : Vec ny) (h : ℚ) (v : Vec nx) (k : ℕ)
    (t : Vec nx × Mtx ny nx × Mtx nx ny) :
    IEKF.iter m r pNext u inn h (k + 1) (.basicVec v) ≠ .ok t := by
  intro hok
  unfold IEKF.iter at hok
  split at hok
  all_goals first
    | simp_all
    | (rename_i x1 hm g heq
       exact iekf_step1_basic_not_ok m r pNext u inn h v _ heq)

theorem iekf_iter_vecdense_ok_basic_crash {nx nu ny : ℕ}
    (m : DModel nx nu ny) (r : GoNoise ny) (pNext : Mtx nx nx)
    (u : Option (List ℚ)) (inn : Vec ny) (h : ℚ) (v : Vec nx) (k : ℕ)
    (t : Vec nx × Mtx ny nx × Mtx nx ny)
    (hok : IEKF.iter m r pNext u inn h (k + 1) (.vecDense v) = .ok t) :
    IEKF.iter m r pNext u inn h (k + 1) (.basicVec v) = .crash := by
  unfold IEKF.iter at hok ⊢
  cases hstep : IEKF.step1 m r pNext u inn h (.vecDense v) with
  | err => rw [hstep] at hok; simp at hok
  | crash => rw [hstep] at hok; simp at hok
  | ok t1 =>
      have hbasic : IEKF.step1 m r pNext u inn h (.basicVec v)
          = .crash := by
        unfold IEKF.step1 at hstep ⊢
        simp only [GoVector.val] at hstep ⊢
        repeat' first
          | split at hstep
          | dsimp only at hstep
        all_goals simp_all
      rw [hbasic]

/-- C10: every `Update` of KF, EKF, IEKF and UKF corrects the state
through the `x.(*mat.VecDense)` type assertion: on inputs where the
`*mat.VecDense` call succeeds (returning the estimate whose value is the
state written back into `x`), the same call with any other `mat.Vector`
implementation panics at that assertion instead of returning an error;
and with such an `x` no estimate is ever returned. -/
theorem update_requires_vecdense {nx nu ny : ℕ} (m : DCtl nx nu ny)
    (md : DModel nx nu ny) (r : GoNoise ny) (pNext : Mtx nx nx)
    (v : Vec nx) (u : Option (List ℚ)) (z : List ℚ) (rs : List ℚ)
    (h : ℚ) (n : ℕ) (Wm0 Wc0 W : ℚ) (spCols : List (Vec nx))
    (xMean : Vec nx) (s : List ℚ) :
    ((∀ est, KF.update m r pNext (.vecDense v) u z rs = .ok est →
        KF.update m r pNext (.basicVec v) u z rs = .crash) ∧
      ∀ est, KF.update m r pNext (.basicVec v) u z rs ≠ .ok est) ∧
    ((∀ est, EKF.update md r pNext (.vecDense v) u z rs h = .ok est →
        EKF.update md r pNext (.basicVec v) u z rs h = .crash) ∧
      ∀ est, EKF.update md r pNext (.basicVec v) u z rs h ≠ .ok est) ∧
    ((∀ est, IEKF.update md r pNext n (.vecDense v) u z rs h = .ok est →
        IEKF.update md r pNext n (.basicVec v) u z rs h = .crash) ∧
      ∀ est, IEKF.update md r pNext n (.basicVec v) u z rs h ≠ .ok est) ∧
    ((∀ est, UKF.update md.observe r Wm0 Wc0 W spCols xMean pNext
          (.vecDense v) u z s = .ok est →
        UKF.update md.observe r Wm0 Wc0 W spCols xMean pNext
          (.basicVec v) u z s = .crash) ∧
      ∀ est, UKF.update md.observe r Wm0 Wc0 W spCols xMean pNext
        (.basicVec v) u z s ≠ .ok est) := by
  refine ⟨⟨?_, ?_⟩, ⟨?_, ?_⟩, ⟨?_, ?_⟩, ⟨?_, ?_⟩⟩
  · intro est hok
    unfold KF.update at hok ⊢
    simp only [GoVector.val] at hok ⊢
    repeat' first
      | split at hok
      | dsimp only at hok
    all_goals simp_all
  · intro est hok
    unfold KF.update at hok
    repeat' first
      | split at hok
      | dsimp only at hok
    all_goals simp_all
  · intro est hok
    unfold EKF.update at hok ⊢
    simp only [GoVector.val] at hok ⊢
    repeat' first
      | split at hok
      | dsimp only at hok
    all_goals simp_all
  · intro est hok
    unfold EKF.update at hok
    repeat' first
      | split at hok
      | dsimp only at hok
    all_goals simp_all
  · intro est hok
    unfold IEKF.update at hok ⊢
    simp only [GoVector.val] at hok ⊢
    by_cases hz : z.length ≠ ny
    · rw [if_pos hz] at hok; simp at hok
    · rw [if_neg hz] at hok ⊢
      cases hobs : md.observe v u (some rs) with
      | none => rw [hobs] at hok; simp at hok
      | some y =>
          rw [hobs] at hok
          dsimp only at hok ⊢
          by_cases hn : n = 0
          · rw [if_pos hn] at hok; simp at hok
          · rw [if_neg hn] at hok ⊢
            obtain ⟨n2, rfl⟩ : ∃ n2, n = n2 + 1 := ⟨n - 1, by omega⟩
            cases hiter : IEKF.iter md r pNext u (listToVec ny z - y) h
                (n2 + 1) (.vecDense v) with
            | err => rw [hiter] at hok; simp at hok
            | crash => rw [hiter] at hok; simp at hok
            | ok t =>
                rw [iekf_iter_vecdense_ok_basic_crash md r pNext u
                  (listToVec ny z - y) h v n2 t hiter]
  · intro est hok
    unfold IEKF.update at hok
    simp only [GoVector.val] at hok
    by_cases hz : z.length ≠ ny
    · rw [if_pos hz] at hok; simp at hok
    · rw [if_neg hz] at hok
      cases hobs : md.observe v u (some rs) with
      | none => rw [hobs] at hok; simp at hok
      | some y =>
          rw [hobs] at hok
          dsimp only at hok
          by_cases hn : n = 0
          · rw [if_pos hn] at hok; simp at hok
          · rw [if_neg hn] at hok
            obtain ⟨n2, rfl⟩ : ∃ n2, n = n2 + 1 := ⟨n - 1, by omega⟩
            cases hiter : IEKF.iter md r pNext u (listToVec ny z - y) h
                (n2 + 1) (.basicVec v) with
            | err => rw [hiter] at hok; simp at hok
            | crash => rw [hiter] at hok; simp at hok
            | ok t =>
                exact iekf_iter_basic_not_ok md r pNext u
                  (listToVec ny z - y) h v n2 t hiter
  · intro est hok
    unfold UKF.update at hok ⊢
    simp only [GoVector.val] at hok ⊢
    repeat' first
      | split at hok
      | dsimp only at hok
    all_goals simp_all
  · intro est hok
    unfold UKF.update at hok
    repeat' first
      | split at hok
      | dsimp only at hok
    all_goals simp_all

/-- Witness for C10: on the one-dimensional fixture where every update
succeeds on a `*mat.VecDense`, passing another `mat.Vector`
implementation panics in all four filters. -/
theorem update_requires_vecdense_witness :
    KF.update oneSys (.gaussian 1) 1 (.basicVec 1) (some [0]) [1] [0]
      = .crash ∧
    EKF.update oneSys.toDModel (.gaussian 1) 1 (.basicVec 1) (some [0])
      [1] [0] 1 = .crash ∧
    IEKF.update oneSys.toDModel (.gaussian 1) 1 1 (.basicVec 1) (some [0])
      [1] [0] 1 = .crash ∧
    UKF.update oneSys.observe (.gaussian 1) (1/3) (1/3) (1/3)
      [fun _ => 0, fun _ => 1, fun _ => -1] 0 1 (.basicVec 1) (some [0])
      [1] [0] = .crash := by
  have hth := update_requires_vecdense oneSys oneSys.toDModel
    (.gaussian 1) 1 1 (some [0]) [1] [0] 1 1 (1/3) (1/3) (1/3)
    [fun _ => 0, fun _ => 1, fun _ => -1] 0 [0]
  refine ⟨hth.1.1 ((KF.update oneSys (.gaussian 1) 1 (.vecDense 1)
      (some [0]) [1] [0]).valD (0, 0)) (by with_unfolding_all decide),
    hth.2.1.1 ((EKF.update oneSys.toDModel (.gaussian 1) 1 (.vecDense 1)
      (some [0]) [1] [0] 1).valD (0, 0)) (by with_unfolding_all decide),
    hth.2.2.1.1 ((IEKF.update oneSys.toDModel (.gaussian 1) 1 1
      (.vecDense 1) (some [0]) [1] [0] 1).valD (0, 0))
      (by with_unfolding_all decide),
    hth.2.2.2.1 ((UKF.update oneSys.observe (.gaussian 1) (1/3) (1/3)
      (1/3) [fun _ => 0, fun _ => 1, fun _ => -1] 0 1 (.vecDense 1)
      (some [0]) [1] [0]).valD (0, 0)) (by with_unfolding_all decide)⟩

/-! ### C9: zero-noise determinism -/

theorem obsFold_fst_stream_indep {nx ny : ℕ}
    (obs : Vec nx → Option (List ℚ) → Option (List ℚ) → Option (Vec ny))
    (r : GoNoise ny) (hr : r = .none' ∨ r = .zero) (u : Option (List ℚ)) :
    ∀ (cols : List (Vec nx)) (s t : List ℚ),
      (UKF.obsFold obs r u cols s).map Prod.fst
        = (UKF.obsFold obs r u cols t).map Prod.fst := by
  intro cols
  induction cols with
  | nil => intro s t; rfl
  | cons c rest ih =>
      intro s t
      have hdraw : ∀ w : List ℚ,
          (if r.cdim = 0 then ((none : Option (List ℚ)), w)
            else (some (r.sampleF w).1, (r.sampleF w).2)).1
          = (if r.cdim = 0 then ((none : Option (List ℚ)), s)
            else (some (r.sampleF s).1, (r.sampleF s).2)).1 := by
        intro w
        rcases hr with rfl | rfl
        · rfl
        · by_cases hny : (GoNoise.zero : GoNoise ny).cdim = 0 <;>
            simp [hny, GoNoise.sampleF]
      unfold UKF.obsFold
      dsimp only
      rw [show (if r.cdim = 0 then ((none : Option (List ℚ)), t)
            else (some (r.sampleF t).1, (r.sampleF t).2)).1
          = (if r.cdim = 0 then ((none : Option (List ℚ)), s)
            else (some (r.sampleF s).1, (r.sampleF s).2)).1
        from hdraw t]
      cases hobs : obs c u
          (if r.cdim = 0 then ((none : Option (List ℚ)), s)
            else (some (r.sampleF s).1, (r.sampleF s).2)).1 with
      | none => simp
      | some yc =>
          have hih := ih
            (if r.cdim = 0 then ((none : Option (List ℚ)), s)
              else (some (r.sampleF s).1, (r.sampleF s).2)).2
            (if r.cdim = 0 then ((none : Option (List ℚ)), t)
              else (some (r.sampleF t).1, (r.sampleF t).2)).2
          cases o1 : UKF.obsFold obs r u rest
              (if r.cdim = 0 then ((none : Option (List ℚ)), s)
                else (some (r.sampleF s).1, (r.sampleF s).2)).2 with
          | none =>
              cases o2 : UKF.obsFold obs r u rest
                  (if r.cdim = 0 then ((none : Option (List ℚ)), t)
                    else (some (r.sampleF t).1, (r.sampleF t).2)).2 with
              | none => simp
              | some p2 => rw [o1, o2] at hih; simp at hih
          | some p1 =>
              cases o2 : UKF.obsFold obs r u rest
                  (if r.cdim = 0 then ((none : Option (List ℚ)), t)
                    else (some (r.sampleF t).1, (r.sampleF t).2)).2 with
              | none => rw [o1, o2] at hih; simp at hih
              | some p2 =>
                  rw [o1, o2] at hih
                  simp only [Option.map_some', Option.some.injEq] at hih
                  simp [hih]

theorem ukf_update_stream_indep {nx ny : ℕ}
    (obs : Vec nx → Option (List ℚ) → Option (List ℚ) → Option (Vec ny))
    (r : GoNoise ny) (hr : r = .none' ∨ r = .zero) (Wm0 Wc0 W : ℚ)
    (spCols : List (Vec nx)) (xMean : Vec nx) (pNext : Mtx nx nx)
    (x : GoVector nx) (u : Option (List ℚ)) (z : List ℚ) (s t : List ℚ) :
    UKF.update obs r Wm0 Wc0 W spCols xMean pNext x u z s
      = UKF.update obs r Wm0 Wc0 W spCols xMean pNext x u z t := by
  unfold UKF.update
  have hf := obsFold_fst_stream_indep obs r hr u spCols s t
  cases o1 : UKF.obsFold obs r u spCols s with
  | none =>
      cases o2 : UKF.obsFold obs r u spCols t with
      | none => rfl
      | some p2 => rw [o1, o2] at hf; simp at hf
  | some p1 =>
      cases o2 : UKF.obsFold obs r u spCols t with
      | none => rw [o1, o2] at hf; simp at hf
      | some p2 =>
          rw [o1, o2] at hf
          simp only [Option.map_some'] at hf
          obtain ⟨ys1, sa⟩ := p1
          obtain ⟨ys2, sb⟩ := p2
          simp only [Option.some.injEq] at hf
          subst hf
          rfl

/-- C9: with all noises replaced by the `Zero`/`None` variants and a
purely linear model, one step (`Run` = `Predict` then `Update`) of KF,
EKF and UKF is a function of `(x, u, z)` alone: two runs fed from
arbitrary, different random streams produce identical results — no
hidden randomness reaches the linear path. -/
theorem zero_noise_determinism {nx nu ny : ℕ} (A : Mtx nx nx)
    (B : Mtx nx nu) (C : Mtx ny nx) (D : Mtx ny nu) (q : GoNoise nx)
    (r : GoNoise ny) (p pE pU : Mtx nx nx) (x : Vec nx)
    (u : Option (List ℚ)) (z : List ℚ) (h gamma Wm0 Wc0 W : ℚ)
    (svdOk : Bool)
    (svdU : Mtx (nx + q.cdim + r.cdim) (nx + q.cdim + r.cdim))
    (svdVals : Fin (nx + q.cdim + r.cdim) → ℚ) (sq : ℚ → ℚ)
    (hq : q = .none' ∨ q = .zero) (hr : r = .none' ∨ r = .zero)
    (s1 s2 : List ℚ) :
    KF.run (linSys A B C D) q r p x u z s1
      = KF.run (linSys A B C D) q r p x u z s2 ∧
    EKF.run (linSys A B C D).toDModel q r pE x u z h s1
      = EKF.run (linSys A B C D).toDModel q r pE x u z h s2 ∧
    UKF.run (linSys A B C D).toDModel q r gamma Wm0 Wc0 W pU svdOk svdU
        svdVals sq x u z s1
      = UKF.run (linSys A B C D).toDModel q r gamma Wm0 Wc0 W pU svdOk
        svdU svdVals sq x u z s2 := by
  refine ⟨?_, ?_, ?_⟩
  · rcases hq with rfl | rfl <;> rcases hr with rfl | rfl <;> rfl
  · rcases hq with rfl | rfl <;> rcases hr with rfl | rfl <;> rfl
  · unfold UKF.run UKF.predict
    rcases hq with rfl | rfl <;>
      [skip;
       skip] <;>
    · dsimp only [GoNoise.sampleF]
      cases hg : UKF.genSigmaPoints _ gamma _ svdOk svdU svdVals sq
          (vecToList x) with
      | none => rfl
      | some sp =>
          dsimp only
          cases hp : (linSys A B C D).toDModel.propagate x u _ with
          | none => rfl
          | some xN =>
              dsimp only
              cases hsp : UKF.propagateSP _ _
                  (linSys A B C D).toDModel.propagate u (UKF.colsOf sp)
                  with
              | none => rfl
              | some cols =>
                  dsimp only
                  exact ukf_update_stream_indep _ r hr Wm0 Wc0 W cols
                    (UKF.wMean Wm0 W cols)
                    (UKF.predictCovariance Wc0 W (UKF.wMean Wm0 W cols)
                      cols) (.vecDense xN) u z s1 s2

/-- Witness for C9 with `Zero` noises on the one-dimensional fixture and
two different random streams. -/
theorem zero_noise_determinism_witness :
    KF.run oneSys .zero .zero 1 1 (some [0]) [1] [3, 7]
      = KF.run oneSys .zero .zero 1 1 (some [0]) [1] [11, 13] ∧
    EKF.run oneSys.toDModel .zero .zero 1 1 (some [0]) [1] 1 [3, 7]
      = EKF.run oneSys.toDModel .zero .zero 1 1 (some [0]) [1] 1
        [11, 13] ∧
    UKF.run oneSys.toDModel .zero .zero 1 (1/3) (1/3) (1/3) 1 true 1
        (fun _ => 1) (fun v => v) 1 (some [0]) [1] [3, 7]
      = UKF.run oneSys.toDModel .zero .zero 1 (1/3) (1/3) (1/3) 1 true 1
        (fun _ => 1) (fun v => v) 1 (some [0]) [1] [11, 13] :=
  zero_noise_determinism !![1] !![1] !![1] !![0] .zero .zero 1 1 1 1
    (some [0]) [1] 1 1 (1/3) (1/3) (1/3) true 1 (fun _ => 1) (fun v => v)
    (Or.inr rfl) (Or.inr rfl) [3, 7] [11, 13]

/-! ### C2: sigma-point generation -/

/-- C2 (amended): `GenSigmaPoints(x)` produces `2·spDim+1` columns in
which column 0 is `x` padded with zeros, columns `1..spDim` add and
columns `spDim+1..2·spDim` subtract the corresponding column of
`gamma·S`, where `S` is the diagonal matrix of the square roots of the
SVD singular values of the block-diagonal covariance (the `U` factor is
computed into `SqrtCov` but discarded); it fails exactly when the SVD
factorisation does not converge. -/
theorem genSigmaPoints_structure (n : ℕ) (gamma : ℚ) (covIn : Mtx n n)
    (svdU : Mtx n n) (svdVals : Fin n → ℚ) (sq : ℚ → ℚ) (x : List ℚ) :
    (UKF.genSigmaPoints n gamma covIn false svdU svdVals sq x = none) ∧
    ∃ M, UKF.genSigmaPoints n gamma covIn true svdU svdVals sq x = some M ∧
      (∀ i : Fin n, M i ⟨0, by omega⟩ = listToVec n x i) ∧
      (∀ (i j : Fin n),
        M i ⟨j.val + 1, by have := j.isLt; omega⟩
          = listToVec n x i
            + gamma * (if i = j then sq (svdVals j) else 0)) ∧
      (∀ (i j : Fin n),
        M i ⟨j.val + 1 + n, by have := j.isLt; omega⟩
          = listToVec n x i
            - gamma * (if i = j then sq (svdVals j) else 0)) := by
  refine ⟨rfl, _, rfl, ?_, ?_, ?_⟩
  · intro i
    simp [UKF.genSigmaPoints]
  · intro i j
    have hjlt := j.isLt
    simp only [UKF.genSigmaPoints]
    rw [dif_neg (by omega), dif_pos (by omega)]
    have hj : (⟨j.val + 1 - 1, by omega⟩ : Fin n) = j := by
      apply Fin.ext
      simp
    rw [hj]
    congr 1
    by_cases hij : i = j
    · subst hij
      simp [Matrix.smul_apply, Matrix.diagonal_apply]
    · have hmm : max i j ≠ min i j := ((min_lt_max).mpr hij).ne'
      simp [Matrix.smul_apply, Matrix.diagonal_apply, hmm, hij]
  · intro i j
    have hjlt := j.isLt
    simp only [UKF.genSigmaPoints]
    rw [dif_neg (by omega), dif_neg (by omega)]
    have hj : (⟨j.val + 1 + n - 1 - n, by omega⟩ : Fin n) = j := by
      apply Fin.ext
      simp
    rw [hj]
    congr 1
    by_cases hij : i = j
    · subst hij
      simp [Matrix.smul_apply, Matrix.diagonal_apply]
    · have hmm : max i j ≠ min i j := ((min_lt_max).mpr hij).ne'
      simp [Matrix.smul_apply, Matrix.diagonal_apply, hmm, hij]

/-- C2 counterexample: for the diagonal covariance `diag(1,4)` (no noise
blocks), the inputs below are a genuine full SVD — `U` orthogonal,
`U·diag(vals)·Uᵀ` equal to the block-diagonal covariance, singular values
non-negative and non-increasing, `sq` their exact square roots — yet the
offset matrix `S` actually added to the sigma-point columns (read back
from the output at `gamma = 1`) satisfies `S·Sᵀ = diag(4,1) ≠ diag(1,4)`:
it is not a matrix square root of the factorised covariance. -/
theorem genSigmaPoints_not_matrix_sqrt :
    ((!![0, 1; 1, 0] : Mtx 2 2)ᵀ * !![0, 1; 1, 0] = 1 ∧
      (!![0, 1; 1, 0] : Mtx 2 2) * Matrix.diagonal ![4, 1]
          * (!![0, 1; 1, 0] : Mtx 2 2)ᵀ
        = blockDiag3 2 0 0 !![1, 0; 0, 4] 0 0 ∧
      (![4, 1] : Fin 2 → ℚ) 1 ≤ ![4, 1] 0 ∧
      (0:ℚ) ≤ ![(4:ℚ), 1] 0 ∧ (0:ℚ) ≤ ![(4:ℚ), 1] 1 ∧
      (fun v : ℚ => if v = 4 then 2 else 1) 4
          * (fun v : ℚ => if v = 4 then 2 else 1) 4 = 4 ∧
      (fun v : ℚ => if v = 4 then 2 else 1) 1
          * (fun v : ℚ => if v = 4 then 2 else 1) 1 = 1) ∧
    ∃ M, UKF.genSigmaPoints 2 1 (blockDiag3 2 0 0 !![1, 0; 0, 4] 0 0) true
        !![0, 1; 1, 0] ![4, 1] (fun v => if v = 4 then 2 else 1) [1, 1]
        = some M ∧
      ¬((Matrix.of fun i j => M i ⟨j.val + 1, by have := j.isLt; omega⟩
            - M i ⟨0, by omega⟩ : Mtx 2 2)
          * (Matrix.of fun i j => M i ⟨j.val + 1, by have := j.isLt; omega⟩
            - M i ⟨0, by omega⟩ : Mtx 2 2)ᵀ
        = blockDiag3 2 0 0 !![1, 0; 0, 4] 0 0) := by
  refine ⟨by with_unfolding_all decide, _, rfl, ?_⟩
  with_unfolding_all decide

/-! ### C3: UKF construction does not validate the shape parameters -/

/-- C3: `ukf.New` performs no validation of `alpha`, `beta`, `kappa`: with
the test fixture's dimensions (`nx = 2`, `ny = 1`, both noises present)
and the negative `Alpha = -10` of `TestUKFNew`, construction succeeds and
a filter is returned, for any square-root routine. -/
theorem ukf_new_accepts_negative_shape_params :
    ∀ sq : ℚ → ℚ,
      (UKF.new 2 1 2 (some 2) (some 1) ⟨-10, 2, 3⟩ sq).isSome = true := by
  intro sq
  rfl

end GoEstimate
